import Mathlib

/-!
# resolver: a verification development

Shallow embedding of `resolver.go` (package `main`) and of the parts of the Go
standard library it calls (`strings`, `net/url` as of Go 1.22, `net.IP`),
followed by the theorems about them.

A Go `string` is a finite sequence of bytes; it is modelled as a list of
byte values (`Nat`).  `str` turns a Lean string literal into its UTF-8 bytes.
Fallible Go functions (`value, err`) return `Option`: `none` is `err != nil`.
-/

namespace Resolver

/-! ## Go strings -/

/-- A Go string: its bytes, in order. -/
abbrev GoString := List Nat

/-- UTF-8 encoding of one code point (what the Go compiler stores for a rune
of a string literal). -/
def encodeRune (c : Char) : List Nat :=
  let v := c.toNat
  if v < 0x80 then [v]
  else if v < 0x800 then [0xC0 + v / 64, 0x80 + v % 64]
  else if v < 0x10000 then [0xE0 + v / 4096, 0x80 + (v / 64) % 64, 0x80 + v % 64]
  else [0xF0 + v / 262144, 0x80 + (v / 4096) % 64, 0x80 + (v / 64) % 64, 0x80 + v % 64]

/-- The bytes of a string literal. -/
def str (s : String) : GoString := s.data.flatMap encodeRune

/-- Go `strings.HasPrefix(s, prefix)`. -/
def HasPrefix : GoString → GoString → Bool
  | _, [] => true
  | [], _ :: _ => false
  | c :: s, p :: ps => c == p && HasPrefix s ps

/-- Go `strings.HasSuffix(s, suffix)`. -/
def HasSuffix (s suffix : GoString) : Bool :=
  HasPrefix s.reverse suffix.reverse

/-- Go `strings.TrimPrefix(s, prefix)`: `s` without the leading `prefix`, or
`s` itself when it does not start with `prefix`. -/
def TrimPrefix (s pre : GoString) : GoString :=
  if HasPrefix s pre then s.drop pre.length else s

/-- Go `strings.Index(s, substr)`: index of the first occurrence, `none` for -1. -/
def Index (substr : GoString) : GoString → Option Nat
  | [] => if substr = [] then some 0 else none
  | c :: s =>
    if HasPrefix (c :: s) substr then some 0
    else (Index substr s).map (· + 1)

/-- Go `strings.LastIndex(s, substr)`: index of the last occurrence, `none` for -1. -/
def LastIndex (substr : GoString) : GoString → Option Nat
  | [] => if substr = [] then some 0 else none
  | c :: s =>
    match LastIndex substr s with
    | some i => some (i + 1)
    | none => if HasPrefix (c :: s) substr then some 0 else none

/-- Go `strings.Contains(s, substr)`. -/
def Contains (s substr : GoString) : Bool := (Index substr s).isSome

/-- Go `strings.Count(s, substr)` for a one-byte `substr`. -/
def CountByte (s : GoString) (b : Nat) : Nat := s.count b

/-- Go `strings.Cut(s, sep)`: the text before and after the first `sep`, and
whether `sep` was found; `(s, "", false)` when it is absent. -/
def Cut (s sep : GoString) : GoString × GoString × Bool :=
  match Index sep s with
  | some i => (s.take i, s.drop (i + sep.length), true)
  | none => (s, [], false)

/-- Go `strings.ToLower` on one byte of an ASCII string. -/
def lowerByte (c : Nat) : Nat :=
  if 65 ≤ c ∧ c ≤ 90 then c + 32 else c

/-! ## Go standard library: `net/url` (the part `url.Parse` and `Hostname` run) -/

/-- Go `url.stringContainsCTLByte`: some byte is below 0x20 or is 0x7f. -/
def stringContainsCTLByte : GoString → Bool
  | [] => false
  | b :: s => if b < 32 ∨ b = 127 then true else stringContainsCTLByte s

/-- ASCII letter test used by `getScheme` and `shouldEscape`. -/
def isAlpha (c : Nat) : Bool := (97 ≤ c && c ≤ 122) || (65 ≤ c && c ≤ 90)

/-- ASCII digit test. -/
def isDigit (c : Nat) : Bool := 48 ≤ c && c ≤ 57

/-- Loop of Go `url.getScheme`, at index `i` with `rest = rawURL[i:]`.
Result `some (scheme, path)`, or `none` for "missing protocol scheme". -/
def getSchemeLoop (rawURL : GoString) : Nat → GoString → Option (GoString × GoString)
  | _, [] => some ([], rawURL)
  | i, c :: rest =>
    if isAlpha c then getSchemeLoop rawURL (i + 1) rest
    else if isDigit c || c == 43 || c == 45 || c == 46 then
      if i = 0 then some ([], rawURL) else getSchemeLoop rawURL (i + 1) rest
    else if c == 58 then
      if i = 0 then none else some (rawURL.take i, rawURL.drop (i + 1))
    else some ([], rawURL)

/-- Go `url.getScheme(rawURL)`. -/
def getScheme (rawURL : GoString) : Option (GoString × GoString) :=
  getSchemeLoop rawURL 0 rawURL

/-- Go `url.encoding`: the modes of `shouldEscape` and `unescape`. -/
inductive Encoding where
  | encodePath
  | encodePathSegment
  | encodeHost
  | encodeZone
  | encodeUserPassword
  | encodeQueryComponent
  | encodeFragment
  deriving DecidableEq, Repr

/-- Go `url.shouldEscape(c, mode)`. -/
def shouldEscape (c : Nat) (mode : Encoding) : Bool :=
  if isAlpha c || isDigit c then false
  else if (mode = Encoding.encodeHost ∨ mode = Encoding.encodeZone) ∧
      c ∈ [33, 36, 38, 39, 40, 41, 42, 43, 44, 59, 61, 58, 91, 93, 60, 62, 34] then false
  else if c ∈ [45, 95, 46, 126] then false
  else if c ∈ [36, 38, 43, 44, 47, 58, 59, 61, 63, 64] then
    match mode with
    | Encoding.encodePath => c == 63
    | Encoding.encodePathSegment => c == 47 || c == 59 || c == 44 || c == 63
    | Encoding.encodeUserPassword => c == 64 || c == 47 || c == 63 || c == 58
    | Encoding.encodeQueryComponent => true
    | Encoding.encodeFragment => false
    | _ => true
  else if mode = Encoding.encodeFragment ∧ c ∈ [33, 40, 41, 42] then false
  else true

/-- Go `url.ishex`. -/
def ishex (c : Nat) : Bool :=
  (48 ≤ c && c ≤ 57) || (97 ≤ c && c ≤ 102) || (65 ≤ c && c ≤ 70)

/-- Go `url.unhex`. -/
def unhex (c : Nat) : Nat :=
  if 48 ≤ c ∧ c ≤ 57 then c - 48
  else if 97 ≤ c ∧ c ≤ 102 then c - 97 + 10
  else if 65 ≤ c ∧ c ≤ 70 then c - 65 + 10
  else 0

/-- First loop of Go `url.unescape`: checks that every `%` starts a
well-formed escape allowed in `mode` and that no byte is invalid for a host.
Returns `(n, hasPlus)`, the number of escapes and the plus flag, or `none`
for an `EscapeError` or `InvalidHostError`. -/
def unescapeCheck (mode : Encoding) : GoString → Nat → Bool → Option (Nat × Bool)
  | [], n, hasPlus => some (n, hasPlus)
  | 37 :: a :: b :: s, n, hasPlus =>
    if !ishex a || !ishex b then none
    else if mode = Encoding.encodeHost ∧ unhex a < 8 ∧ [37, a, b] ≠ [37, 50, 53] then none
    else if mode = Encoding.encodeZone ∧ [37, a, b] ≠ [37, 50, 53] ∧
        unhex a * 16 + unhex b ≠ 32 ∧
        shouldEscape (unhex a * 16 + unhex b) Encoding.encodeHost then none
    else unescapeCheck mode s (n + 1) hasPlus
  | 37 :: _, _, _ => none
  | 43 :: s, n, _ =>
    unescapeCheck mode s n (decide (mode = Encoding.encodeQueryComponent))
  | c :: s, n, hasPlus =>
    if (mode = Encoding.encodeHost ∨ mode = Encoding.encodeZone) ∧ c < 128 ∧
        shouldEscape c Encoding.encodeHost then none
    else unescapeCheck mode s n hasPlus

/-- Second loop of Go `url.unescape`: replaces each `%XX` by its byte and, in
query-component mode, each `+` by a space. -/
def unescapeBuild (mode : Encoding) : GoString → GoString
  | [] => []
  | 37 :: a :: b :: s => (unhex a * 16 + unhex b) :: unescapeBuild mode s
  | 43 :: s =>
    (if mode = Encoding.encodeQueryComponent then 32 else 43) :: unescapeBuild mode s
  | c :: s => c :: unescapeBuild mode s

/-- Go `url.unescape(s, mode)`. -/
def unescape (s : GoString) (mode : Encoding) : Option GoString :=
  match unescapeCheck mode s 0 false with
  | none => none
  | some (n, hasPlus) =>
    if n = 0 ∧ hasPlus = false then some s else some (unescapeBuild mode s)

/-- Go `url.validOptionalPort(port)`: empty, or a colon followed by digits. -/
def validOptionalPort : GoString → Bool
  | [] => true
  | c :: digits => c == 58 && digits.all fun b => decide (48 ≤ b ∧ b ≤ 57)

/-- Go `url.validUserinfo(s)`, for the bytes of `s` below 0x80; a byte from
0x80 up belongs to a rune that is none of the allowed characters. -/
def validUserinfo (s : GoString) : Bool :=
  s.all fun r => isAlpha r || isDigit r ||
    decide (r ∈ [45, 46, 95, 58, 126, 33, 36, 38, 39, 40, 41, 42, 43, 44, 59, 61, 37, 64])

/-- Go `url.parseHost(host)`. -/
def parseHost (host : GoString) : Option GoString :=
  if HasPrefix host [91] then
    match LastIndex [93] host with
    | none => none
    | some i =>
      if !validOptionalPort (host.drop (i + 1)) then none
      else
        match Index [37, 50, 53] (host.take i) with
        | some zone =>
          match unescape (host.take zone) Encoding.encodeHost with
          | none => none
          | some host1 =>
            match unescape ((host.take i).drop zone) Encoding.encodeZone with
            | none => none
            | some host2 =>
              match unescape (host.drop i) Encoding.encodeHost with
              | none => none
              | some host3 => some (host1 ++ host2 ++ host3)
        | none => unescape host Encoding.encodeHost
  else
    match LastIndex [58] host with
    | some i =>
      if !validOptionalPort (host.drop i) then none
      else unescape host Encoding.encodeHost
    | none => unescape host Encoding.encodeHost

/-- Go `url.Userinfo`: user name, password, and whether a password is set. -/
structure Userinfo where
  username : GoString
  password : GoString
  passwordSet : Bool
  deriving DecidableEq, Repr

/-- Go `url.parseAuthority(authority)`: the user information and the host. -/
def parseAuthority (authority : GoString) : Option (Option Userinfo × GoString) :=
  match LastIndex [64] authority with
  | none =>
    match parseHost authority with
    | none => none
    | some host => some (none, host)
  | some i =>
    match parseHost (authority.drop (i + 1)) with
    | none => none
    | some host =>
      let userinfo := authority.take i
      if !validUserinfo userinfo then none
      else if !Contains userinfo [58] then
        match unescape userinfo Encoding.encodeUserPassword with
        | none => none
        | some u => some (some ⟨u, [], false⟩, host)
      else
        let c := Cut userinfo [58]
        match unescape c.1 Encoding.encodeUserPassword with
        | none => none
        | some username =>
          match unescape c.2.1 Encoding.encodeUserPassword with
          | none => none
          | some password => some (some ⟨username, password, true⟩, host)

/-- Go `url.URL`, without the two encoding hints `RawPath` and `RawFragment`
(they are computed after every error check and are not read by the resolver). -/
structure URL where
  Scheme : GoString := []
  Opaque : GoString := []
  User : Option Userinfo := none
  Host : GoString := []
  Path : GoString := []
  OmitHost : Bool := false
  ForceQuery : Bool := false
  RawQuery : GoString := []
  Fragment : GoString := []
  deriving DecidableEq, Repr

/-- The authority branch of Go `url.parse`, then `setPath`: run once the
scheme and the query have been split off `rest`. -/
def parseAuthorityAndPath (url : URL) (rest : GoString) : Option URL :=
  if (url.Scheme ≠ [] ∨ !HasPrefix rest [47, 47, 47]) ∧ HasPrefix rest [47, 47] then
    let authority := rest.drop 2
    let split : GoString × GoString :=
      match Index [47] authority with
      | some i => (authority.take i, authority.drop i)
      | none => (authority, [])
    match parseAuthority split.1 with
    | none => none
    | some (user, host) =>
      match unescape split.2 Encoding.encodePath with
      | none => none
      | some path => some { url with User := user, Host := host, Path := path }
  else
    let url1 : URL :=
      if url.Scheme ≠ [] ∧ HasPrefix rest [47] then { url with OmitHost := true } else url
    match unescape rest Encoding.encodePath with
    | none => none
    | some path => some { url1 with Path := path }

/-- Go `url.parse(rawURL, viaRequest)` with `viaRequest = false`, the only
way `url.Parse` calls it. -/
def parse (rawURL : GoString) : Option URL :=
  if stringContainsCTLByte rawURL then none
  else if rawURL = [42] then some { Path := [42] }
  else
    match getScheme rawURL with
    | none => none
    | some (scheme, rest0) =>
      let url : URL := { Scheme := scheme.map lowerByte }
      let q : URL × GoString :=
        if HasSuffix rest0 [63] ∧ CountByte rest0 63 = 1 then
          ({ url with ForceQuery := true }, rest0.take (rest0.length - 1))
        else
          ({ url with RawQuery := (Cut rest0 [63]).2.1 }, (Cut rest0 [63]).1)
      let url := q.1
      let rest := q.2
      if !HasPrefix rest [47] then
        if url.Scheme ≠ [] then some { url with Opaque := rest }
        else if Contains (Cut rest [47]).1 [58] then none
        else parseAuthorityAndPath url rest
      else parseAuthorityAndPath url rest

/-- Go `url.Parse(rawURL)`: cuts the fragment off, parses the rest, then
sets the fragment. -/
def Parse (rawURL : GoString) : Option URL :=
  let c := Cut rawURL [35]
  match parse c.1 with
  | none => none
  | some url =>
    if c.2.1 = [] then some url
    else
      match unescape c.2.1 Encoding.encodeFragment with
      | none => none
      | some frag => some { url with Fragment := frag }

/-- Go `url.splitHostPort(hostPort)`, the host part: a valid trailing
`:port` is cut off, then one pair of enclosing square brackets. -/
def splitHostPort (hostPort : GoString) : GoString × GoString :=
  let hp : GoString × GoString :=
    match LastIndex [58] hostPort with
    | some colon =>
      if validOptionalPort (hostPort.drop colon) then
        (hostPort.take colon, hostPort.drop (colon + 1))
      else (hostPort, [])
    | none => (hostPort, [])
  if HasPrefix hp.1 [91] ∧ HasSuffix hp.1 [93] then
    ((hp.1.drop 1).take (hp.1.length - 2), hp.2)
  else hp

/-- Go `(*URL).Hostname()`. -/
def URL.Hostname (u : URL) : GoString := (splitHostPort u.Host).1

/-! ## resolver.go -/

/-- The record `Result` of resolver.go. -/
structure Result where
  InputURL : GoString
  Domain : GoString
  IP : GoString
  deriving DecidableEq, Repr

/-- Lines 21 to 23 of resolver.go: `input` after the conditional assignment
`input = "http://" + input`. -/
def defaultScheme (input : GoString) : GoString :=
  if !HasPrefix input (str "http://") && !HasPrefix input (str "https://") then
    str "http://" ++ input
  else input

/-- The function `extractDomain` of resolver.go. -/
def extractDomain (input : GoString) : GoString :=
  let input := defaultScheme input
  match Parse input with
  | none => input
  | some u => TrimPrefix u.Hostname (str "www.")

/-! ### `net.IP` -/

/-- Go `net.IP`: a slice of bytes, 4 long for IPv4 and 16 long for IPv6. -/
abbrev IP := List Nat

/-- Go `(IP).To4()`: the 4-byte form of an IPv4 address, `none` for `nil`.
A 4-byte address is returned as it is; a 16-byte address whose first ten
bytes are zero and whose next two are 0xff yields its last four bytes. -/
def To4 (ip : IP) : Option IP :=
  if ip.length = 4 then some ip
  else if ip.length = 16 ∧ (ip.take 10).all (· == 0) ∧ ip.get? 10 = some 255 ∧
      ip.get? 11 = some 255 then some ((ip.drop 12).take 4)
  else none

/-- Go `uitoa` on a byte: its decimal digits, without leading zeros. -/
def uitoa (v : Nat) : GoString :=
  if v < 10 then [48 + v]
  else if v < 100 then [48 + v / 10, 48 + v % 10]
  else [48 + v / 100, 48 + (v / 10) % 10, 48 + v % 10]

/-- Go `(IP).String()` on a 4-byte address, the only kind `To4` returns:
dotted decimal. -/
def IPv4String : IP → GoString
  | [a, b, c, d] => uitoa a ++ [46] ++ uitoa b ++ [46] ++ uitoa c ++ [46] ++ uitoa d
  | _ => []

/-- What the program reads from outside: `strings.TrimSpace` (Unicode-aware,
taken as given) and the answer of `net.LookupIP` for each name, `none` when
the lookup returns an error. -/
structure World where
  TrimSpace : GoString → GoString
  LookupIP : GoString → Option (List IP)

/-- The `for _, ip := range ips` loop of `resolveDomain`. -/
def resolveDomainLoop : List IP → GoString
  | [] => []
  | ip :: ips =>
    match To4 ip with
    | some ipv4 => IPv4String ipv4
    | none => resolveDomainLoop ips

/-- The function `resolveDomain` of resolver.go; the empty string is the
absent IP. -/
def resolveDomain (w : World) (domain : GoString) : GoString :=
  match w.LookupIP domain with
  | none => []
  | some ips => resolveDomainLoop ips

/-- The body of the loop of `worker`: the result built for one job. -/
def workerBody (w : World) (inputURL : GoString) : Result :=
  let domain := extractDomain inputURL
  let ip := resolveDomain w domain
  { InputURL := inputURL, Domain := domain, IP := ip }

/-! ### The collector loop of `main` -/

/-- Go `map[string]bool`: the entries written so far, last write first.
A key that was never written reads as `false`. -/
abbrev GoMap := List (GoString × Bool)

/-- Read `m[k]`. -/
def GoMap.get (m : GoMap) (k : GoString) : Bool :=
  match m.lookup k with
  | some b => b
  | none => false

/-- Write `m[k] = v`. -/
def GoMap.put (m : GoMap) (k : GoString) (v : Bool) : GoMap := (k, v) :: m

/-- State of the collector loop: the map `uniqueIPs` and the lines emitted
so far, oldest first.  Each emitted line is passed to `fmt.Print` and then
to `writer.WriteString`. -/
structure Collector where
  uniqueIPs : GoMap
  lines : List GoString
  deriving DecidableEq, Repr

/-- One iteration of `for result := range results` in `main`. -/
def collectStep (outputFormat : GoString) (st : Collector) (result : Result) : Collector :=
  if outputFormat = str "domain-ip" then
    let line :=
      if result.IP ≠ [] then result.Domain ++ str "," ++ result.IP ++ str "\n"
      else result.Domain ++ str ",Could not resolve\n"
    { st with lines := st.lines ++ [line] }
  else
    if result.IP ≠ [] ∧ !st.uniqueIPs.get result.IP then
      { uniqueIPs := st.uniqueIPs.put result.IP true,
        lines := st.lines ++ [result.IP ++ str "\n"] }
    else st

/-- The collector loop of `main`, run over the results in arrival order,
starting from the empty map. -/
def collectorLoop (outputFormat : GoString) (arrival : List Result) : Collector :=
  arrival.foldl (collectStep outputFormat) { uniqueIPs := [], lines := [] }

/-! ### `main` up to and including the collector -/

/-- The values of the command-line flags after `flag.Parse()`. -/
structure Flags where
  inputFile : GoString
  outputFile : GoString
  concurrency : Int
  outputFormat : GoString
  helpFlag : Bool

/-- The file system as `main` sees it: `os.Open` and `os.Create` succeed
(`none`) or fail with an error text. -/
structure Files where
  Open : GoString → Option GoString
  Create : GoString → Option GoString

/-- What the main goroutine does, in order. -/
inductive Event where
  | usage
  | stdout (text : GoString)
  | openInput (name : GoString)
  | createOutput (name : GoString)
  | startPipeline (workers : Int)
  | emit (line : GoString)
  | flush
  | closeOutput
  | closeInput
  deriving DecidableEq, Repr

/-- The main goroutine of `main`: `arrival` is the sequence of results that
the channel `results` hands to the collector loop before it is closed. -/
def main (fl : Flags) (fs : Files) (arrival : List Result) : List Event :=
  if fl.helpFlag then [Event.usage]
  else if fl.outputFormat ≠ str "domain-ip" ∧ fl.outputFormat ≠ str "ip" then
    [Event.stdout (str "Invalid output format. Use 'ip' or 'domain-ip'.\n")]
  else
    match fs.Open fl.inputFile with
    | some err =>
      [Event.openInput fl.inputFile,
       Event.stdout (str "Error opening input file " ++ fl.inputFile ++ str ": " ++ err ++ str "\n")]
    | none =>
      match fs.Create fl.outputFile with
      | some err =>
        [Event.openInput fl.inputFile, Event.createOutput fl.outputFile,
         Event.stdout (str "Error creating output file " ++ fl.outputFile ++ str ": " ++ err
           ++ str "\n"),
         Event.closeInput]
      | none =>
        [Event.openInput fl.inputFile, Event.createOutput fl.outputFile,
         Event.startPipeline fl.concurrency]
        ++ (collectorLoop fl.outputFormat arrival).lines.map Event.emit
        ++ [Event.flush, Event.closeOutput, Event.closeInput]

/-- Whether an event touches the input, the output sink or the pipeline. -/
def Event.isProcessing : Event → Bool
  | Event.openInput _ => true
  | Event.createOutput _ => true
  | Event.startPipeline _ => true
  | Event.emit _ => true
  | Event.flush => true
  | Event.closeOutput => true
  | Event.closeInput => true
  | _ => false

/-! ### The pipeline: producer, workers, supervisor, collector -/

/-- Where a worker goroutine stands: waiting to receive from `jobs`, holding
a result it is about to send on `results`, or returned (`wg.Done()` ran). -/
inductive WorkerState where
  | receiving
  | sending (r : Result)
  | done
  deriving DecidableEq, Repr

/-- A state of the pipeline started by `main`. -/
structure Pipeline where
  /-- lines the scanner has not returned yet -/
  input : List GoString
  /-- buffer of the channel `jobs`, oldest first -/
  jobs : List GoString
  jobsClosed : Bool
  workers : List WorkerState
  /-- buffer of the channel `results`, oldest first -/
  results : List Result
  resultsClosed : Bool
  /-- results received by the collector loop, in arrival order -/
  collected : List Result
  collectorDone : Bool
  deriving DecidableEq, Repr

/-- The state after `main` has made the channels and started `W` workers. -/
def Pipeline.init (W : Nat) (lines : List GoString) : Pipeline :=
  { input := lines, jobs := [], jobsClosed := false,
    workers := List.replicate W WorkerState.receiving,
    results := [], resultsClosed := false, collected := [], collectorDone := false }

/-- The atomic steps of the goroutines. -/
inductive Action where
  /-- producer: `jobs <- strings.TrimSpace(scanner.Text())` -/
  | produce
  /-- producer: `close(jobs)` once `scanner.Scan()` returns false -/
  | closeJobs
  /-- worker `i`: receive a job and compute its result -/
  | recv (i : Nat)
  /-- worker `i`: `results <- Result{...}` -/
  | send (i : Nat)
  /-- worker `i`: `jobs` closed and drained, the loop ends, `wg.Done()` -/
  | exit (i : Nat)
  /-- supervisor: `wg.Wait()` returned, `close(results)` -/
  | closeResults
  /-- collector: receive one result from `results` -/
  | collect
  /-- collector: `results` closed and drained, the loop ends -/
  | finish
  deriving DecidableEq, Repr

/-- One step of the pipeline with channels of capacity `W`; `none` when the
goroutine cannot take that step in state `s` (it is blocked or past it).
A send blocks while the buffer of its channel is full; a receive blocks
while the buffer is empty and the channel is open. -/
def Pipeline.step (w : World) (W : Nat) (s : Pipeline) : Action → Option Pipeline
  | Action.produce =>
    match s.input with
    | l :: rest =>
      if s.jobs.length < W then
        some { s with input := rest, jobs := s.jobs ++ [w.TrimSpace l] }
      else none
    | [] => none
  | Action.closeJobs =>
    if s.input = [] ∧ s.jobsClosed = false then some { s with jobsClosed := true } else none
  | Action.recv i =>
    match s.workers.get? i, s.jobs with
    | some WorkerState.receiving, j :: js =>
      some { s with jobs := js, workers := s.workers.set i (WorkerState.sending (workerBody w j)) }
    | _, _ => none
  | Action.send i =>
    match s.workers.get? i with
    | some (WorkerState.sending r) =>
      if s.results.length < W then
        some { s with results := s.results ++ [r],
                      workers := s.workers.set i WorkerState.receiving }
      else none
    | _ => none
  | Action.exit i =>
    match s.workers.get? i with
    | some WorkerState.receiving =>
      if s.jobs = [] ∧ s.jobsClosed = true then
        some { s with workers := s.workers.set i WorkerState.done }
      else none
    | _ => none
  | Action.closeResults =>
    if (s.workers.all fun x => decide (x = WorkerState.done)) ∧ s.resultsClosed = false then
      some { s with resultsClosed := true }
    else none
  | Action.collect =>
    match s.results with
    | r :: rs =>
      if s.collectorDone = false then
        some { s with results := rs, collected := s.collected ++ [r] }
      else none
    | [] => none
  | Action.finish =>
    if s.results = [] ∧ s.resultsClosed = true ∧ s.collectorDone = false then
      some { s with collectorDone := true }
    else none

/-- Run a schedule: the actions in the order the scheduler picks them. -/
def Pipeline.run (w : World) (W : Nat) : Pipeline → List Action → Option Pipeline
  | s, [] => some s
  | s, a :: as =>
    match s.step w W a with
    | some t => Pipeline.run w W t as
    | none => none

/-- The results held by workers that have received a job and not yet sent
its result. -/
def heldResults : List WorkerState → List Result
  | [] => []
  | WorkerState.sending r :: ws => r :: heldResults ws
  | _ :: ws => heldResults ws

/-- Number of workers that have not returned. -/
def liveWorkers : List WorkerState → Nat
  | [] => 0
  | WorkerState.done :: ws => liveWorkers ws
  | _ :: ws => liveWorkers ws + 1

/-- Work left in a pipeline state: every step lowers it. -/
def Pipeline.fuel (s : Pipeline) : Nat :=
  4 * s.input.length + 3 * s.jobs.length + 2 * (heldResults s.workers).length
    + s.results.length + liveWorkers s.workers
    + (if s.jobsClosed then 0 else 1) + (if s.resultsClosed then 0 else 1)
    + (if s.collectorDone then 0 else 1)

/-- The result a worker builds for a scanned line: the line is trimmed by
the producer, then passed through `extractDomain` and `resolveDomain`. -/
def outcomeOf (w : World) (line : GoString) : Result :=
  { InputURL := w.TrimSpace line,
    Domain := extractDomain (w.TrimSpace line),
    IP := resolveDomain w (extractDomain (w.TrimSpace line)) }

/-- The invariant of the pipeline: every line is in exactly one place (not
yet read, in `jobs`, held by a worker, in `results`, or collected), and the
channels are closed only once their senders are through. -/
structure Pipeline.Inv (w : World) (W : Nat) (lines : List GoString) (s : Pipeline) : Prop where
  conserve : (s.collected ++ (s.results ++ (heldResults s.workers ++
      (s.jobs.map (workerBody w) ++ s.input.map (outcomeOf w))))).Perm (lines.map (outcomeOf w))
  closedInput : s.jobsClosed = true → s.input = []
  doneJobs : WorkerState.done ∈ s.workers → s.jobsClosed = true ∧ s.jobs = []
  closedDone : s.resultsClosed = true → ∀ x ∈ s.workers, x = WorkerState.done
  doneClosed : s.collectorDone = true → s.resultsClosed = true ∧ s.results = []
  size : s.workers.length = W

/-! ## Specification-side definitions -/

/-- First occurrences: the list with every later repetition of an element
removed, the order of the first occurrences kept. -/
def firstOccurrences : List GoString → List GoString
  | [] => []
  | x :: xs => x :: (firstOccurrences xs).filter (· ≠ x)

/-- A bare hostname byte: an ASCII letter, a digit, a hyphen or a dot. -/
def isHostnameByte (c : Nat) : Bool := isAlpha c || isDigit c || c == 45 || c == 46

/-! ## The collector loop (ip mode and domain-ip mode) -/

theorem str_ip_ne_domain_ip : str "ip" ≠ str "domain-ip" := by decide

theorem GoMap.get_put (m : GoMap) (k x : GoString) :
    (m.put k true).get x = (decide (x = k) || m.get x) := by
  unfold GoMap.get GoMap.put
  by_cases h : x = k
  · subst h; simp [List.lookup]
  · have h2 : (x == k) = false := by simpa using h
    simp [List.lookup, h2, h]

theorem collectStep_ip_absent (st : Collector) (r : Result) (h : r.IP = []) :
    collectStep (str "ip") st r = st := by
  simp [collectStep, str_ip_ne_domain_ip, h]

theorem collectStep_ip_seen (st : Collector) (r : Result) (h : st.uniqueIPs.get r.IP = true) :
    collectStep (str "ip") st r = st := by
  simp [collectStep, str_ip_ne_domain_ip, h]

theorem collectStep_ip_new (st : Collector) (r : Result) (h1 : r.IP ≠ [])
    (h2 : st.uniqueIPs.get r.IP = false) :
    collectStep (str "ip") st r =
      { uniqueIPs := st.uniqueIPs.put r.IP true, lines := st.lines ++ [r.IP ++ str "\n"] } := by
  simp [collectStep, str_ip_ne_domain_ip, h1, h2]

theorem foldl_collectStep_ip (arrival : List Result) : ∀ st : Collector,
    (arrival.foldl (collectStep (str "ip")) st).lines =
      st.lines ++ ((firstOccurrences ((arrival.map Result.IP).filter (· ≠ []))).filter
        (fun ip => !st.uniqueIPs.get ip)).map (· ++ str "\n") := by
  induction arrival with
  | nil => intro st; simp [firstOccurrences]
  | cons r rs ih =>
    intro st
    rw [List.foldl_cons]
    by_cases h1 : r.IP = []
    · rw [collectStep_ip_absent st r h1, ih]
      simp [h1]
    · have hf : ((r :: rs).map Result.IP).filter (· ≠ [])
          = r.IP :: (rs.map Result.IP).filter (· ≠ []) := by
        simp [h1]
      rw [hf, firstOccurrences]
      cases h2 : st.uniqueIPs.get r.IP with
      | true =>
        rw [collectStep_ip_seen st r h2, ih]
        congr 2
        rw [List.filter_cons_of_neg (by simp [h2]), List.filter_filter]
        apply List.filter_congr
        intro x _
        by_cases hx : x = r.IP
        · subst hx; simp [h2]
        · simp [hx]
      | false =>
        rw [collectStep_ip_new st r h1 h2, ih]
        rw [List.filter_cons_of_pos (by simp [h2]), List.filter_filter]
        simp only [List.map_cons, List.append_assoc, List.singleton_append]
        congr 3
        apply List.filter_congr
        intro x _
        rw [GoMap.get_put]
        by_cases hx : x = r.IP
        · simp [hx]
        · simp [hx]

theorem mem_firstOccurrences (l : List GoString) (x : GoString) :
    x ∈ firstOccurrences l ↔ x ∈ l := by
  induction l with
  | nil => simp [firstOccurrences]
  | cons a l ih =>
    simp only [firstOccurrences, List.mem_cons, List.mem_filter, ih]
    by_cases h : x = a
    · simp [h]
    · simp [h]

theorem nodup_firstOccurrences (l : List GoString) : (firstOccurrences l).Nodup := by
  induction l with
  | nil => simp [firstOccurrences]
  | cons a l ih =>
    simp only [firstOccurrences, List.nodup_cons]
    exact ⟨by simp [List.mem_filter], ih.filter _⟩

theorem append_right_injective_line (suffix : GoString) :
    Function.Injective (fun ip : GoString => ip ++ suffix) := by
  intro a b h
  exact List.append_cancel_right h

theorem collectorLoop_ip_lines (arrival : List Result) :
    (collectorLoop (str "ip") arrival).lines =
      (firstOccurrences ((arrival.map Result.IP).filter (· ≠ []))).map (· ++ str "\n") := by
  unfold collectorLoop
  rw [foldl_collectStep_ip]
  simp [GoMap.get]

theorem collectStep_domain_ip (st : Collector) (r : Result) :
    collectStep (str "domain-ip") st r =
      { st with lines := st.lines ++
          [if r.IP ≠ [] then r.Domain ++ str "," ++ r.IP ++ str "\n"
           else r.Domain ++ str ",Could not resolve\n"] } := by
  simp [collectStep]

theorem foldl_collectStep_domain_ip (arrival : List Result) : ∀ st : Collector,
    (arrival.foldl (collectStep (str "domain-ip")) st).lines =
      st.lines ++ arrival.map (fun r =>
        if r.IP ≠ [] then r.Domain ++ str "," ++ r.IP ++ str "\n"
        else r.Domain ++ str ",Could not resolve\n") := by
  induction arrival with
  | nil => intro st; simp
  | cons r rs ih =>
    intro st
    rw [List.foldl_cons, ih, collectStep_domain_ip]
    simp

theorem firstOccurrences_append_singleton (l : List GoString) (x : GoString) :
    firstOccurrences (l ++ [x]) = if x ∈ l then firstOccurrences l else firstOccurrences l ++ [x] := by
  induction l with
  | nil => simp [firstOccurrences]
  | cons a l ih =>
    simp only [List.cons_append, firstOccurrences, List.mem_cons]
    rw [show l.append [x] = l ++ [x] from rfl, ih]
    by_cases hxa : x = a
    · subst hxa
      by_cases hxl : x ∈ l
      · simp [hxl]
      · simp [hxl, List.filter_append]
    · by_cases hxl : x ∈ l
      · simp [hxl]
      · simp [hxl, hxa, List.filter_append]

theorem mem_collectorLoop_ip_lines (arrival : List Result) (line : GoString) :
    line ∈ (collectorLoop (str "ip") arrival).lines ↔
      ∃ r ∈ arrival, r.IP ≠ [] ∧ line = r.IP ++ str "\n" := by
  rw [collectorLoop_ip_lines]
  simp only [List.mem_map, mem_firstOccurrences, List.mem_filter]
  constructor
  · rintro ⟨ip, ⟨⟨r, hr, rfl⟩, hne⟩, rfl⟩
    exact ⟨r, hr, by simpa using hne, rfl⟩
  · rintro ⟨r, hr, hne, rfl⟩
    exact ⟨r.IP, ⟨⟨r, hr, rfl⟩, by simpa using hne⟩, rfl⟩

theorem nodup_collectorLoop_ip_lines (arrival : List Result) :
    (collectorLoop (str "ip") arrival).lines.Nodup := by
  rw [collectorLoop_ip_lines]
  exact (nodup_firstOccurrences _).map (append_right_injective_line _)

theorem collectorLoop_domain_ip_lines (arrival : List Result) :
    (collectorLoop (str "domain-ip") arrival).lines =
      arrival.map (fun r =>
        if r.IP ≠ [] then r.Domain ++ str "," ++ r.IP ++ str "\n"
        else r.Domain ++ str ",Could not resolve\n") := by
  unfold collectorLoop
  rw [foldl_collectStep_domain_ip]
  simp

/-- C1: in ip mode the lines emitted by the collector loop are exactly the
non-empty IP values of the arrival sequence with every later repetition
removed, in arrival order, each followed by a newline; no line is emitted
twice, and a result whose IP is empty or has already arrived adds no line. -/
theorem ip_mode_emits_first_occurrences (arrival : List Result) :
    (collectorLoop (str "ip") arrival).lines =
        (firstOccurrences ((arrival.map Result.IP).filter (· ≠ []))).map (· ++ str "\n")
    ∧ (collectorLoop (str "ip") arrival).lines.Nodup
    ∧ (∀ r : Result, (r.IP = [] ∨ r.IP ∈ arrival.map Result.IP) →
        (collectorLoop (str "ip") (arrival ++ [r])).lines =
          (collectorLoop (str "ip") arrival).lines)
    ∧ (collectorLoop (str "ip")
        [⟨str "example.com", str "example.com", str "93.184.216.34"⟩,
         ⟨str "http://example.com", str "example.com", str "93.184.216.34"⟩,
         ⟨str "bad..domain", str "bad..domain", []⟩]).lines = [str "93.184.216.34\n"] := by
  refine ⟨collectorLoop_ip_lines arrival, nodup_collectorLoop_ip_lines arrival, ?_, by decide⟩
  intro r hr
  rw [collectorLoop_ip_lines, collectorLoop_ip_lines]
  by_cases h0 : r.IP = []
  · simp [h0]
  · have hmem : r.IP ∈ arrival.map Result.IP := hr.resolve_left h0
    have hf : ((arrival ++ [r]).map Result.IP).filter (· ≠ [])
        = (arrival.map Result.IP).filter (· ≠ []) ++ [r.IP] := by
      simp [List.filter_append, h0]
    rw [hf, firstOccurrences_append_singleton]
    have : r.IP ∈ (arrival.map Result.IP).filter (· ≠ []) := by
      simp only [List.mem_filter]
      exact ⟨hmem, by simpa using h0⟩
    rw [if_pos this]

/-- C2: in domain-ip mode the collector loop emits one line per result, in
arrival order and without deduplication: domain, comma, IP when the IP is
present, and domain followed by ",Could not resolve" when it is absent. -/
theorem domain_ip_mode_one_line_per_outcome (arrival : List Result) :
    (collectorLoop (str "domain-ip") arrival).lines =
        arrival.map (fun r =>
          if r.IP ≠ [] then r.Domain ++ str "," ++ r.IP ++ str "\n"
          else r.Domain ++ str ",Could not resolve\n")
    ∧ (collectorLoop (str "domain-ip") arrival).lines.length = arrival.length
    ∧ (collectorLoop (str "domain-ip")
        [⟨str "example.com", str "example.com", str "93.184.216.34"⟩,
         ⟨str "http://example.com", str "example.com", str "93.184.216.34"⟩,
         ⟨str "bad..domain", str "bad..domain", []⟩]).lines =
        [str "example.com,93.184.216.34\n", str "example.com,93.184.216.34\n",
         str "bad..domain,Could not resolve\n"] := by
  refine ⟨collectorLoop_domain_ip_lines arrival, ?_, by decide⟩
  rw [collectorLoop_domain_ip_lines]
  simp

/-- C10: the output does not depend on the arrival order.  For two arrival
sequences that are permutations of each other, ip mode emits the same set of
lines (one line per distinct non-empty IP, so the two outputs are
permutations of each other), and domain-ip mode emits the same multiset of
lines. -/
theorem output_independent_of_arrival_order (xs ys : List Result) (h : xs.Perm ys) :
    (∀ line, line ∈ (collectorLoop (str "ip") xs).lines ↔
        line ∈ (collectorLoop (str "ip") ys).lines)
    ∧ (∀ line, line ∈ (collectorLoop (str "ip") xs).lines ↔
        ∃ r ∈ xs, r.IP ≠ [] ∧ line = r.IP ++ str "\n")
    ∧ (collectorLoop (str "ip") xs).lines.Nodup
    ∧ ((collectorLoop (str "ip") xs).lines).Perm (collectorLoop (str "ip") ys).lines
    ∧ ((collectorLoop (str "domain-ip") xs).lines).Perm
        (collectorLoop (str "domain-ip") ys).lines := by
  have hset : ∀ line, line ∈ (collectorLoop (str "ip") xs).lines ↔
      line ∈ (collectorLoop (str "ip") ys).lines := by
    intro line
    rw [mem_collectorLoop_ip_lines, mem_collectorLoop_ip_lines]
    constructor
    · rintro ⟨r, hr, hne, hl⟩
      exact ⟨r, h.subset hr, hne, hl⟩
    · rintro ⟨r, hr, hne, hl⟩
      exact ⟨r, h.symm.subset hr, hne, hl⟩
  refine ⟨hset, mem_collectorLoop_ip_lines xs, nodup_collectorLoop_ip_lines xs, ?_, ?_⟩
  · exact (List.perm_ext_iff_of_nodup (nodup_collectorLoop_ip_lines xs)
      (nodup_collectorLoop_ip_lines ys)).mpr hset
  · rw [collectorLoop_domain_ip_lines, collectorLoop_domain_ip_lines]
    exact h.map _

/-- C10 at a concrete pair of arrival orders: the same three results, the
first two swapped. -/
theorem output_independent_of_arrival_order_witness :
    ((collectorLoop (str "ip")
        [⟨str "a.org", str "a.org", str "1.2.3.4"⟩, ⟨str "b.org", str "b.org", []⟩,
         ⟨str "a.org", str "a.org", str "1.2.3.4"⟩]).lines).Perm
      (collectorLoop (str "ip")
        [⟨str "b.org", str "b.org", []⟩, ⟨str "a.org", str "a.org", str "1.2.3.4"⟩,
         ⟨str "a.org", str "a.org", str "1.2.3.4"⟩]).lines
    ∧ ((collectorLoop (str "domain-ip")
        [⟨str "a.org", str "a.org", str "1.2.3.4"⟩, ⟨str "b.org", str "b.org", []⟩,
         ⟨str "a.org", str "a.org", str "1.2.3.4"⟩]).lines).Perm
      (collectorLoop (str "domain-ip")
        [⟨str "b.org", str "b.org", []⟩, ⟨str "a.org", str "a.org", str "1.2.3.4"⟩,
         ⟨str "a.org", str "a.org", str "1.2.3.4"⟩]).lines :=
  have h := output_independent_of_arrival_order
    [⟨str "a.org", str "a.org", str "1.2.3.4"⟩, ⟨str "b.org", str "b.org", []⟩,
     ⟨str "a.org", str "a.org", str "1.2.3.4"⟩]
    [⟨str "b.org", str "b.org", []⟩, ⟨str "a.org", str "a.org", str "1.2.3.4"⟩,
     ⟨str "a.org", str "a.org", str "1.2.3.4"⟩]
    (List.Perm.swap _ _ _)
  ⟨h.2.2.2.1, h.2.2.2.2⟩

/-! ## `extractDomain` -/

theorem HasPrefix_append (p s : GoString) : HasPrefix (p ++ s) p = true := by
  induction p with
  | nil => cases s <;> rfl
  | cons a p ih => simp [HasPrefix, ih]

theorem HasPrefix_iff (s p : GoString) : HasPrefix s p = true ↔ ∃ t, s = p ++ t := by
  induction p generalizing s with
  | nil => cases s <;> simp [HasPrefix]
  | cons a p ih =>
    cases s with
    | nil => simp [HasPrefix]
    | cons c s =>
      simp only [HasPrefix, Bool.and_eq_true, beq_iff_eq, ih, List.cons_append, List.cons.injEq]
      constructor
      · rintro ⟨rfl, t, rfl⟩; exact ⟨t, rfl, rfl⟩
      · rintro ⟨t, rfl, rfl⟩; exact ⟨rfl, t, rfl⟩

theorem defaultScheme_of_bare (s : GoString) (h1 : HasPrefix s (str "http://") = false)
    (h2 : HasPrefix s (str "https://") = false) : defaultScheme s = str "http://" ++ s := by
  simp [defaultScheme, h1, h2]

theorem defaultScheme_idem (s : GoString) : defaultScheme (defaultScheme s) = defaultScheme s := by
  unfold defaultScheme
  by_cases h : (!HasPrefix s (str "http://") && !HasPrefix s (str "https://")) = true
  · rw [if_pos h, HasPrefix_append]
    simp
  · rw [if_neg h, if_neg h]

theorem HasPrefix_append_append (p t q : GoString) :
    HasPrefix (p ++ t) (p ++ q) = HasPrefix t q := by
  induction p with
  | nil => rfl
  | cons a p ih => simp [HasPrefix, ih]

theorem HasPrefix_of_append (s p q : GoString) (h : HasPrefix s (p ++ q) = true) :
    HasPrefix s p = true := by
  obtain ⟨t, rfl⟩ := (HasPrefix_iff _ _).mp h
  rw [List.append_assoc]
  exact HasPrefix_append _ _

theorem HasPrefix_TrimPrefix (h p : GoString) :
    HasPrefix (TrimPrefix h p) p = HasPrefix h (p ++ p) := by
  unfold TrimPrefix
  by_cases hp : HasPrefix h p = true
  · obtain ⟨t, rfl⟩ := (HasPrefix_iff _ _).mp hp
    rw [if_pos (HasPrefix_append _ _), HasPrefix_append_append]
    simp
  · rw [if_neg hp]
    have h2 : HasPrefix h (p ++ p) ≠ true := fun hh => hp (HasPrefix_of_append _ _ _ hh)
    simp only [Bool.not_eq_true] at hp h2
    rw [hp, h2]

theorem defaultScheme_head (input : GoString) : ∃ t, defaultScheme input = 104 :: t := by
  unfold defaultScheme
  by_cases h : (!HasPrefix input (str "http://") && !HasPrefix input (str "https://")) = true
  · rw [if_pos h]
    exact ⟨str "ttp://" ++ input, rfl⟩
  · rw [if_neg h]
    simp only [Bool.and_eq_true, Bool.not_eq_true', not_and, Bool.not_eq_false] at h
    by_cases h1 : HasPrefix input (str "http://") = true
    · obtain ⟨t, rfl⟩ := (HasPrefix_iff _ _).mp h1
      exact ⟨str "ttp://" ++ t, rfl⟩
    · simp only [Bool.not_eq_true] at h1
      obtain ⟨t, rfl⟩ := (HasPrefix_iff _ _).mp (h h1)
      exact ⟨str "ttps://" ++ t, rfl⟩

theorem extractDomain_of_parse_failure (input : GoString)
    (h : Parse (defaultScheme input) = none) : extractDomain input = defaultScheme input := by
  simp [extractDomain, h]

theorem extractDomain_of_parse_success (input : GoString) (u : URL)
    (h : Parse (defaultScheme input) = some u) :
    extractDomain input = TrimPrefix u.Hostname (str "www.") := by
  simp [extractDomain, h]

/-- C4 (the code at the failing input): parsing "http://foo bar" fails,
and `extractDomain` returns "http://foo bar" for the input "foo bar",
which is not the string it was given; for the input "http://foo bar" it
returns the input unchanged. -/
theorem extractDomain_parse_failure_returns_prefixed :
    Parse (str "http://foo bar") = none
    ∧ extractDomain (str "foo bar") = str "http://foo bar"
    ∧ extractDomain (str "foo bar") ≠ str "foo bar"
    ∧ extractDomain (str "http://foo bar") = str "http://foo bar" := by
  decide

/-- C5 as stated fails: the input "www.www.example.com" yields
"www.example.com", which begins with "www.". -/
theorem extractDomain_www_counterexample :
    extractDomain (str "www.www.example.com") = str "www.example.com"
    ∧ HasPrefix (extractDomain (str "www.www.example.com")) (str "www.") = true := by
  decide

/-- C5 (amended): `extractDomain` strips one leading "www." of the parsed
host name.  Its result begins with "www." exactly when URL parsing succeeds
and the parsed host name begins with "www.www."; in every other case the
result does not begin with "www.". -/
theorem extractDomain_www_prefix_iff (input : GoString) :
    HasPrefix (extractDomain input) (str "www.") = true ↔
      ∃ u, Parse (defaultScheme input) = some u ∧
        HasPrefix u.Hostname (str "www.www.") = true := by
  cases hp : Parse (defaultScheme input) with
  | none =>
    rw [extractDomain_of_parse_failure input hp]
    obtain ⟨t, ht⟩ := defaultScheme_head input
    rw [ht]
    constructor
    · intro h
      have hw : str "www." = [119, 119, 119, 46] := by decide
      rw [hw] at h
      simp [HasPrefix] at h
    · rintro ⟨u, hu, _⟩; cases hu
  | some u =>
    rw [extractDomain_of_parse_success input u hp, HasPrefix_TrimPrefix]
    constructor
    · intro h; exact ⟨u, rfl, h⟩
    · rintro ⟨v, hv, h⟩
      cases hv
      exact h

/-- C9: an input that begins with neither "http://" nor "https://" is
parsed as the URL "http://" followed by the input, so `extractDomain` gives
the same result for both. -/
theorem extractDomain_default_scheme (s : GoString)
    (h1 : HasPrefix s (str "http://") = false) (h2 : HasPrefix s (str "https://") = false) :
    extractDomain s = extractDomain (str "http://" ++ s) := by
  unfold extractDomain
  rw [← defaultScheme_of_bare s h1 h2, defaultScheme_idem]

/-- C9 at the host:port example of the claim. -/
theorem extractDomain_default_scheme_witness :
    HasPrefix (str "example.com:8080") (str "http://") = false
    ∧ HasPrefix (str "example.com:8080") (str "https://") = false
    ∧ extractDomain (str "example.com:8080") = extractDomain (str "http://" ++ str "example.com:8080")
    ∧ extractDomain (str "example.com:8080") = str "example.com"
    ∧ extractDomain (str "http://example.com:8080") = str "example.com" :=
  ⟨by decide, by decide,
    extractDomain_default_scheme (str "example.com:8080") (by decide) (by decide),
    by decide, by decide⟩

/-! ## `resolveDomain` -/

theorem To4_length (ip v : IP) (h : To4 ip = some v) : v.length = 4 := by
  unfold To4 at h
  by_cases h4 : ip.length = 4
  · rw [if_pos h4] at h
    cases h
    exact h4
  · rw [if_neg h4] at h
    by_cases h16 : ip.length = 16 ∧ ((ip.take 10).all (· == 0)) = true ∧ ip.get? 10 = some 255 ∧
        ip.get? 11 = some 255
    · rw [if_pos h16] at h
      cases h
      simp [h16.1]
    · rw [if_neg h16] at h
      cases h

theorem IPv4String_ne_nil (v : IP) (h : v.length = 4) : IPv4String v ≠ [] := by
  match v, h with
  | [a, b, c, d], _ =>
    unfold IPv4String uitoa
    split <;> simp

theorem resolveDomainLoop_skip (pre : List IP) (ip : IP) (post : List IP) (v : IP)
    (hpre : ∀ a ∈ pre, To4 a = none) (hip : To4 ip = some v) :
    resolveDomainLoop (pre ++ ip :: post) = IPv4String v := by
  induction pre with
  | nil => simp [resolveDomainLoop, hip]
  | cons a pre ih =>
    have ha : To4 a = none := hpre a (List.mem_cons_self _ _)
    simp only [List.cons_append, resolveDomainLoop, ha]
    exact ih (fun x hx => hpre x (List.mem_cons_of_mem _ hx))

theorem resolveDomainLoop_none (ips : List IP) (h : ∀ a ∈ ips, To4 a = none) :
    resolveDomainLoop ips = [] := by
  induction ips with
  | nil => rfl
  | cons a ips ih =>
    have ha : To4 a = none := h a (List.mem_cons_self _ _)
    simp only [resolveDomainLoop, ha]
    exact ih (fun x hx => h x (List.mem_cons_of_mem _ hx))

/-- C6: `resolveDomain` returns the absent IP (the empty string) when the
lookup returns an error; when the lookup returns addresses it returns the
dotted-decimal text of the first address that has a 4-byte form, skipping
every address before it that has none, and that text is not empty; it
returns the absent IP when no address has a 4-byte form, the empty list
included. -/
theorem resolveDomain_first_ipv4 (w : World) (domain : GoString) :
    (w.LookupIP domain = none → resolveDomain w domain = [])
    ∧ (∀ (pre : List IP) (ip : IP) (post : List IP) (v : IP),
        w.LookupIP domain = some (pre ++ ip :: post) → (∀ a ∈ pre, To4 a = none) →
        To4 ip = some v →
          resolveDomain w domain = IPv4String v ∧ resolveDomain w domain ≠ [])
    ∧ (∀ ips : List IP, w.LookupIP domain = some ips → (∀ a ∈ ips, To4 a = none) →
        resolveDomain w domain = [])
    ∧ (w.LookupIP domain = some [] → resolveDomain w domain = []) := by
  refine ⟨?_, ?_, ?_, ?_⟩
  · intro h
    simp [resolveDomain, h]
  · intro pre ip post v h hpre hip
    have e : resolveDomain w domain = IPv4String v := by
      simp only [resolveDomain, h]
      exact resolveDomainLoop_skip pre ip post v hpre hip
    exact ⟨e, e ▸ IPv4String_ne_nil v (To4_length ip v hip)⟩
  · intro ips h hall
    simp only [resolveDomain, h]
    exact resolveDomainLoop_none ips hall
  · intro h
    simp [resolveDomain, h, resolveDomainLoop]

/-- C6 at a concrete answer: an IPv6-only address followed by the IPv4
address 93.184.216.34 and another IPv4 address. -/
theorem resolveDomain_first_ipv4_witness :
    resolveDomain ⟨id, fun _ =>
        some [[32, 1, 13, 184, 0, 0, 0, 0, 0, 0, 0, 0, 0, 0, 0, 1], [93, 184, 216, 34],
          [10, 0, 0, 1]]⟩ (str "example.com") = str "93.184.216.34" :=
  ((resolveDomain_first_ipv4 ⟨id, fun _ =>
        some [[32, 1, 13, 184, 0, 0, 0, 0, 0, 0, 0, 0, 0, 0, 0, 1], [93, 184, 216, 34],
          [10, 0, 0, 1]]⟩ (str "example.com")).2.1
      [[32, 1, 13, 184, 0, 0, 0, 0, 0, 0, 0, 0, 0, 0, 0, 1]] [93, 184, 216, 34] [[10, 0, 0, 1]]
      [93, 184, 216, 34] rfl (by decide) (by decide)).1.trans (by decide)

/-! ## `main` before the pipeline -/

/-- C8 as stated fails: with the help flag set, an invalid output format is
not reported; `main` prints the usage text and returns. -/
theorem main_help_hides_invalid_format :
    str "xml" ≠ str "ip" ∧ str "xml" ≠ str "domain-ip"
    ∧ main ⟨str "urls.txt", str "resolved_ips.txt", 100, str "xml", true⟩
        ⟨fun _ => none, fun _ => none⟩ [] = [Event.usage]
    ∧ Event.stdout (str "Invalid output format. Use 'ip' or 'domain-ip'.\n") ∉
        main ⟨str "urls.txt", str "resolved_ips.txt", 100, str "xml", true⟩
          ⟨fun _ => none, fun _ => none⟩ [] := by
  refine ⟨by decide, by decide, rfl, ?_⟩
  simp [main]

/-- C8 (amended): for flags whose output format is neither "ip" nor
"domain-ip", `main` returns before the pipeline starts.  When the help flag
is not set it prints the invalid-format message once and does nothing else;
when the help flag is set it prints the usage text only.  In both cases it
opens no input, creates no output file, starts no pipeline and emits no
line, whatever the files and the results are. -/
theorem main_rejects_invalid_format (fl : Flags) (fs : Files) (arrival : List Result)
    (h1 : fl.outputFormat ≠ str "ip") (h2 : fl.outputFormat ≠ str "domain-ip") :
    (fl.helpFlag = false → main fl fs arrival =
        [Event.stdout (str "Invalid output format. Use 'ip' or 'domain-ip'.\n")])
    ∧ (fl.helpFlag = true → main fl fs arrival = [Event.usage])
    ∧ (∀ e ∈ main fl fs arrival, e.isProcessing = false) := by
  refine ⟨fun hh => by simp [main, hh, h1, h2], fun hh => by simp [main, hh], ?_⟩
  intro x hx
  cases hh : fl.helpFlag with
  | true =>
    have e : main fl fs arrival = [Event.usage] := by simp [main, hh]
    rw [e, List.mem_singleton] at hx
    subst hx
    rfl
  | false =>
    have e : main fl fs arrival =
        [Event.stdout (str "Invalid output format. Use 'ip' or 'domain-ip'.\n")] := by
      simp [main, hh, h1, h2]
    rw [e, List.mem_singleton] at hx
    subst hx
    rfl

/-- C8 (amended) at the flags `-format=xml`. -/
theorem main_rejects_invalid_format_witness :
    main ⟨str "urls.txt", str "resolved_ips.txt", 100, str "xml", false⟩
        ⟨fun _ => none, fun _ => none⟩ [⟨str "a.org", str "a.org", str "1.2.3.4"⟩] =
      [Event.stdout (str "Invalid output format. Use 'ip' or 'domain-ip'.\n")] :=
  (main_rejects_invalid_format ⟨str "urls.txt", str "resolved_ips.txt", 100, str "xml", false⟩
    ⟨fun _ => none, fun _ => none⟩ [⟨str "a.org", str "a.org", str "1.2.3.4"⟩]
    (by decide) (by decide)).1 rfl

/-! ## `url.Parse` on a scheme followed by a bare host name -/

theorem Index_byte_none (b : Nat) (s : GoString) (h : b ∉ s) : Index [b] s = none := by
  induction s with
  | nil => simp [Index]
  | cons c s ih =>
    have hc : ¬ c = b := fun e => h (e ▸ List.mem_cons_self _ _)
    have hs : b ∉ s := fun e => h (List.mem_cons_of_mem _ e)
    simp [Index, HasPrefix, hc, ih hs]

theorem LastIndex_byte_none (b : Nat) (s : GoString) (h : b ∉ s) : LastIndex [b] s = none := by
  induction s with
  | nil => simp [LastIndex]
  | cons c s ih =>
    have hc : ¬ c = b := fun e => h (e ▸ List.mem_cons_self _ _)
    have hs : b ∉ s := fun e => h (List.mem_cons_of_mem _ e)
    simp [LastIndex, HasPrefix, hc, ih hs]

theorem stringContainsCTLByte_false (s : GoString) (h : ∀ c ∈ s, 32 ≤ c ∧ c ≠ 127) :
    stringContainsCTLByte s = false := by
  induction s with
  | nil => rfl
  | cons c s ih =>
    have hc := h c (List.mem_cons_self _ _)
    have : ¬ (c < 32 ∨ c = 127) := by omega
    simp only [stringContainsCTLByte, this, if_false]
    exact ih (fun x hx => h x (List.mem_cons_of_mem _ hx))

theorem isHostnameByte_cases (c : Nat) (h : isHostnameByte c = true) :
    (97 ≤ c ∧ c ≤ 122) ∨ (65 ≤ c ∧ c ≤ 90) ∨ (48 ≤ c ∧ c ≤ 57) ∨ c = 45 ∨ c = 46 := by
  simp only [isHostnameByte, isAlpha, isDigit, Bool.or_eq_true, Bool.and_eq_true,
    decide_eq_true_eq, beq_iff_eq] at h
  omega

theorem not_mem_of_hostname (X : GoString) (hX : ∀ c ∈ X, isHostnameByte c = true) (b : Nat)
    (hb : isHostnameByte b = false) : b ∉ X := by
  intro hmem
  rw [hX b hmem] at hb
  cases hb

theorem shouldEscape_hostname (c : Nat) (m : Encoding) (h : isHostnameByte c = true) :
    shouldEscape c m = false := by
  rcases isHostnameByte_cases c h with h | h | h | h | h
  · have : isAlpha c = true := by simp [isAlpha, h.1, h.2]
    simp [shouldEscape, this]
  · have : isAlpha c = true := by simp [isAlpha, h.1, h.2]
    simp [shouldEscape, this]
  · have : isDigit c = true := by simp [isDigit, h.1, h.2]
    simp [shouldEscape, this]
  · subst h; cases m <;> decide
  · subst h; cases m <;> decide

theorem unescapeCheck_hostname (m : Encoding) (X : GoString)
    (hX : ∀ c ∈ X, isHostnameByte c = true) (n : Nat) (p : Bool) :
    unescapeCheck m X n p = some (n, p) := by
  induction X with
  | nil => rfl
  | cons c X ih =>
    have hc := hX c (List.mem_cons_self _ _)
    have h37 : c ≠ 37 := fun e => by subst e; exact absurd hc (by decide)
    have h43 : c ≠ 43 := fun e => by subst e; exact absurd hc (by decide)
    have ih2 := ih (fun x hx => hX x (List.mem_cons_of_mem _ hx))
    unfold unescapeCheck
    split
    · rename_i heq; cases heq
    · rename_i heq; injection heq with e1 e2; exact absurd e1 h37
    · rename_i heq; injection heq with e1 e2; exact absurd e1 h37
    · rename_i heq; injection heq with e1 e2; exact absurd e1 h43
    · rename_i heq
      injection heq with e1 e2
      subst e1 e2
      simp [shouldEscape_hostname _ _ hc, ih2]

theorem unescape_hostname (m : Encoding) (X : GoString)
    (hX : ∀ c ∈ X, isHostnameByte c = true) : unescape X m = some X := by
  simp [unescape, unescapeCheck_hostname m X hX]

theorem HasPrefix_byte_false (b : Nat) (X : GoString) (h : b ∉ X) : HasPrefix X [b] = false := by
  cases X with
  | nil => rfl
  | cons c X =>
    have hc : ¬ c = b := fun e => h (e ▸ List.mem_cons_self _ _)
    simp [HasPrefix, hc]

theorem parseHost_hostname (X : GoString) (hX : ∀ c ∈ X, isHostnameByte c = true) :
    parseHost X = some X := by
  have h91 : HasPrefix X [91] = false :=
    HasPrefix_byte_false 91 X (not_mem_of_hostname X hX 91 (by decide))
  have h58 : LastIndex [58] X = none :=
    LastIndex_byte_none 58 X (not_mem_of_hostname X hX 58 (by decide))
  simp [parseHost, h91, h58, unescape_hostname _ X hX]

theorem parseAuthority_hostname (X : GoString) (hX : ∀ c ∈ X, isHostnameByte c = true) :
    parseAuthority X = some (none, X) := by
  have h64 : LastIndex [64] X = none :=
    LastIndex_byte_none 64 X (not_mem_of_hostname X hX 64 (by decide))
  simp [parseAuthority, h64, parseHost_hostname X hX]

theorem splitHostPort_hostname (X : GoString) (hX : ∀ c ∈ X, isHostnameByte c = true) :
    splitHostPort X = (X, []) := by
  have h91 : HasPrefix X [91] = false :=
    HasPrefix_byte_false 91 X (not_mem_of_hostname X hX 91 (by decide))
  have h58 : LastIndex [58] X = none :=
    LastIndex_byte_none 58 X (not_mem_of_hostname X hX 58 (by decide))
  simp [splitHostPort, h91, h58]

theorem parseAuthorityAndPath_hostname (url : URL) (X : GoString)
    (hX : ∀ c ∈ X, isHostnameByte c = true) (hs : url.Scheme ≠ []) :
    parseAuthorityAndPath url (47 :: 47 :: X) =
      some { url with User := none, Host := X, Path := [] } := by
  have h47 : Index [47] X = none :=
    Index_byte_none 47 X (not_mem_of_hostname X hX 47 (by decide))
  simp [parseAuthorityAndPath, hs, HasPrefix, h47, parseAuthority_hostname X hX, unescape,
    unescapeCheck]

theorem parse_scheme_hostname (rawURL scheme X : GoString)
    (hX : ∀ c ∈ X, isHostnameByte c = true)
    (hctl : stringContainsCTLByte rawURL = false) (hstar : rawURL ≠ [42])
    (hsch : getScheme rawURL = some (scheme, 47 :: 47 :: X)) (hne : scheme ≠ []) :
    parse rawURL = some { Scheme := scheme.map lowerByte, Host := X } := by
  have h63 : (63 : Nat) ∉ (47 :: 47 :: X) := by
    have := not_mem_of_hostname X hX 63 (by decide)
    simp [this]
  have hcount : CountByte (47 :: 47 :: X) 63 = 0 := by
    unfold CountByte
    exact List.count_eq_zero.mpr h63
  have hcut : Cut (47 :: 47 :: X) [63] = (47 :: 47 :: X, [], false) := by
    simp [Cut, Index_byte_none 63 _ h63]
  have hne2 : List.map lowerByte scheme ≠ [] := by
    simpa using hne
  unfold parse
  rw [if_neg (by simp [hctl]), if_neg hstar, hsch]
  simp only [hcount, hcut]
  simp [HasPrefix, parseAuthorityAndPath_hostname _ X hX, hne2]

theorem Parse_http_hostname (X : GoString) (hX : ∀ c ∈ X, isHostnameByte c = true) :
    Parse (str "http://" ++ X) = some { Scheme := str "http", Host := X } := by
  have hp : str "http://" = [104, 116, 116, 112, 58, 47, 47] := by decide
  have hq : str "http" = [104, 116, 116, 112] := by decide
  have h35 : (35 : Nat) ∉ X := not_mem_of_hostname X hX 35 (by decide)
  have hX2 : ∀ c ∈ X, 32 ≤ c ∧ c ≠ 127 := fun c hc => by
    have := isHostnameByte_cases c (hX c hc); omega
  rw [hp, hq]
  have hcut : Cut ([104, 116, 116, 112, 58, 47, 47] ++ X) [35]
      = ([104, 116, 116, 112, 58, 47, 47] ++ X, [], false) := by
    unfold Cut
    rw [Index_byte_none 35 _ (show (35 : Nat) ∉ [104, 116, 116, 112, 58, 47, 47] ++ X by
      simp [h35])]
  have hparse := parse_scheme_hostname ([104, 116, 116, 112, 58, 47, 47] ++ X)
    [104, 116, 116, 112] X hX
    (stringContainsCTLByte_false _ (by
      intro c hc
      simp only [List.cons_append, List.nil_append, List.mem_cons] at hc
      rcases hc with h | h | h | h | h | h | h | h
      all_goals first | exact hX2 c h | omega))
    (by simp)
    (by simp [getScheme, getSchemeLoop, isAlpha, isDigit])
    (by simp)
  simp only [Parse, hcut, hparse]
  simp [lowerByte]

theorem Parse_https_hostname (X : GoString) (hX : ∀ c ∈ X, isHostnameByte c = true) :
    Parse (str "https://" ++ X) = some { Scheme := str "https", Host := X } := by
  have hp : str "https://" = [104, 116, 116, 112, 115, 58, 47, 47] := by decide
  have hq : str "https" = [104, 116, 116, 112, 115] := by decide
  have h35 : (35 : Nat) ∉ X := not_mem_of_hostname X hX 35 (by decide)
  have hX2 : ∀ c ∈ X, 32 ≤ c ∧ c ≠ 127 := fun c hc => by
    have := isHostnameByte_cases c (hX c hc); omega
  rw [hp, hq]
  have hcut : Cut ([104, 116, 116, 112, 115, 58, 47, 47] ++ X) [35]
      = ([104, 116, 116, 112, 115, 58, 47, 47] ++ X, [], false) := by
    unfold Cut
    rw [Index_byte_none 35 _
      (show (35 : Nat) ∉ [104, 116, 116, 112, 115, 58, 47, 47] ++ X by simp [h35])]
  have hparse := parse_scheme_hostname ([104, 116, 116, 112, 115, 58, 47, 47] ++ X)
    [104, 116, 116, 112, 115] X hX
    (stringContainsCTLByte_false _ (by
      intro c hc
      simp only [List.cons_append, List.nil_append, List.mem_cons] at hc
      rcases hc with h | h | h | h | h | h | h | h | h
      all_goals first | exact hX2 c h | omega))
    (by simp)
    (by simp [getScheme, getSchemeLoop, isAlpha, isDigit])
    (by simp)
  simp only [Parse, hcut, hparse]
  simp [lowerByte]

theorem not_HasPrefix_of_not_mem (X p : GoString) (b : Nat) (hb : b ∈ p) (hX : b ∉ X) :
    HasPrefix X p = false := by
  cases h : HasPrefix X p with
  | false => rfl
  | true =>
    obtain ⟨t, rfl⟩ := (HasPrefix_iff _ _).mp h
    exact absurd (List.mem_append_left t hb) hX

theorem extractDomain_http_hostname (X : GoString) (hX : ∀ c ∈ X, isHostnameByte c = true) :
    extractDomain (str "http://" ++ X) = TrimPrefix X (str "www.") := by
  have hd : defaultScheme (str "http://" ++ X) = str "http://" ++ X := by
    simp [defaultScheme, HasPrefix_append]
  rw [extractDomain_of_parse_success _ _ (hd.symm ▸ Parse_http_hostname X hX)]
  simp [URL.Hostname, splitHostPort_hostname X hX]

theorem extractDomain_https_hostname (X : GoString) (hX : ∀ c ∈ X, isHostnameByte c = true) :
    extractDomain (str "https://" ++ X) = TrimPrefix X (str "www.") := by
  have hd : defaultScheme (str "https://" ++ X) = str "https://" ++ X := by
    simp [defaultScheme, HasPrefix_append]
  rw [extractDomain_of_parse_success _ _ (hd.symm ▸ Parse_https_hostname X hX)]
  simp [URL.Hostname, splitHostPort_hostname X hX]

/-- C3: for every bare host name `h` (letters, digits, hyphens and dots,
not beginning with "www."; it need not even be non-empty),
`extractDomain h`, `extractDomain ("http://" + h)` and
`extractDomain ("https://www." + h)` all equal `h`. -/
theorem extractDomain_bare_hostname (h : GoString)
    (hbytes : ∀ c ∈ h, isHostnameByte c = true) (hwww : HasPrefix h (str "www.") = false) :
    extractDomain h = h
    ∧ extractDomain (str "http://" ++ h) = h
    ∧ extractDomain (str "https://www." ++ h) = h := by
  have h58 : (58 : Nat) ∉ h := not_mem_of_hostname h hbytes 58 (by decide)
  have h1 : HasPrefix h (str "http://") = false :=
    not_HasPrefix_of_not_mem h _ 58 (by decide) h58
  have h2 : HasPrefix h (str "https://") = false :=
    not_HasPrefix_of_not_mem h _ 58 (by decide) h58
  have htrim : TrimPrefix h (str "www.") = h := by simp [TrimPrefix, hwww]
  have hhttp : extractDomain (str "http://" ++ h) = h := by
    rw [extractDomain_http_hostname h hbytes, htrim]
  refine ⟨?_, hhttp, ?_⟩
  · unfold extractDomain
    rw [defaultScheme_of_bare h h1 h2]
    have := hhttp
    unfold extractDomain at this
    rw [show defaultScheme (str "http://" ++ h) = str "http://" ++ h by
      simp [defaultScheme, HasPrefix_append]] at this
    exact this
  · have hsplit : str "https://www." ++ h = str "https://" ++ (str "www." ++ h) := by
      rw [← List.append_assoc]
      congr 1
    have hw : ∀ c ∈ str "www." ++ h, isHostnameByte c = true := by
      intro c hc
      rcases List.mem_append.mp hc with hc | hc
      · have e : str "www." = [119, 119, 119, 46] := by decide
        rw [e] at hc
        simp only [List.mem_cons, List.mem_singleton, List.not_mem_nil, or_false] at hc
        rcases hc with rfl | rfl | rfl | rfl <;> decide
      · exact hbytes c hc
    rw [hsplit, extractDomain_https_hostname _ hw]
    unfold TrimPrefix
    rw [if_pos (HasPrefix_append _ _), List.drop_left]

/-- C3 at the host name "example.com" of the specification. -/
theorem extractDomain_bare_hostname_witness :
    extractDomain (str "example.com") = str "example.com"
    ∧ extractDomain (str "http://" ++ str "example.com") = str "example.com"
    ∧ extractDomain (str "https://www." ++ str "example.com") = str "example.com"
    ∧ str "http://" ++ str "example.com" = str "http://example.com"
    ∧ str "https://www." ++ str "example.com" = str "https://www.example.com" :=
  have h := extractDomain_bare_hostname (str "example.com") (by decide) (by decide)
  ⟨h.1, h.2.1, h.2.2, by decide, by decide⟩

/-! ## The pipeline delivers every line exactly once -/

theorem heldResults_set_sending (ws : List WorkerState) (i : Nat) (r : Result)
    (h : ws.get? i = some WorkerState.receiving) :
    (heldResults (ws.set i (WorkerState.sending r))).Perm (r :: heldResults ws) := by
  induction ws generalizing i with
  | nil => simp at h
  | cons x ws ih =>
    cases i with
    | zero =>
      simp only [List.get?_cons_zero, Option.some.injEq] at h
      subst h
      simp [heldResults]
    | succ i =>
      simp only [List.get?_cons_succ] at h
      have := ih i h
      cases x with
      | receiving => simpa [heldResults] using this
      | done => simpa [heldResults] using this
      | sending q =>
        simp only [List.set_cons_succ, heldResults]
        exact (List.Perm.cons q this).trans (List.Perm.swap r q _)

theorem heldResults_set_receiving (ws : List WorkerState) (i : Nat) (r : Result)
    (h : ws.get? i = some (WorkerState.sending r)) :
    (r :: heldResults (ws.set i WorkerState.receiving)).Perm (heldResults ws) := by
  induction ws generalizing i with
  | nil => simp at h
  | cons x ws ih =>
    cases i with
    | zero =>
      simp only [List.get?_cons_zero, Option.some.injEq] at h
      subst h
      simp [heldResults]
    | succ i =>
      simp only [List.get?_cons_succ] at h
      have := ih i h
      cases x with
      | receiving => simpa [heldResults] using this
      | done => simpa [heldResults] using this
      | sending q =>
        simp only [List.set_cons_succ, heldResults]
        exact (List.Perm.swap q r _).trans (List.Perm.cons q this)

theorem heldResults_set_done (ws : List WorkerState) (i : Nat)
    (h : ws.get? i = some WorkerState.receiving) :
    heldResults (ws.set i WorkerState.done) = heldResults ws := by
  induction ws generalizing i with
  | nil => simp at h
  | cons x ws ih =>
    cases i with
    | zero =>
      simp only [List.get?_cons_zero, Option.some.injEq] at h
      subst h
      simp [heldResults]
    | succ i =>
      simp only [List.get?_cons_succ] at h
      have := ih i h
      cases x <;> simp [heldResults, this]

theorem liveWorkers_set_live (ws : List WorkerState) (i : Nat) (x y : WorkerState)
    (h : ws.get? i = some x) (hx : x ≠ WorkerState.done) (hy : y ≠ WorkerState.done) :
    liveWorkers (ws.set i y) = liveWorkers ws := by
  induction ws generalizing i with
  | nil => simp at h
  | cons z ws ih =>
    cases i with
    | zero =>
      simp only [List.get?_cons_zero, Option.some.injEq] at h
      subst h
      cases z <;> cases y <;> simp_all [liveWorkers]
    | succ i =>
      simp only [List.get?_cons_succ] at h
      have := ih i h
      cases z <;> simp [liveWorkers, this]

theorem liveWorkers_set_done (ws : List WorkerState) (i : Nat)
    (h : ws.get? i = some WorkerState.receiving) :
    liveWorkers (ws.set i WorkerState.done) + 1 = liveWorkers ws := by
  induction ws generalizing i with
  | nil => simp at h
  | cons z ws ih =>
    cases i with
    | zero =>
      simp only [List.get?_cons_zero, Option.some.injEq] at h
      subst h
      simp [liveWorkers]
    | succ i =>
      simp only [List.get?_cons_succ] at h
      have := ih i h
      cases z <;> simp [liveWorkers] <;> omega

theorem heldResults_all_done (ws : List WorkerState) (h : ∀ x ∈ ws, x = WorkerState.done) :
    heldResults ws = [] := by
  induction ws with
  | nil => rfl
  | cons x ws ih =>
    have hx := h x (List.mem_cons_self _ _)
    subst hx
    simp only [heldResults]
    exact ih (fun y hy => h y (List.mem_cons_of_mem _ hy))

theorem liveWorkers_all_done (ws : List WorkerState) (h : ∀ x ∈ ws, x = WorkerState.done) :
    liveWorkers ws = 0 := by
  induction ws with
  | nil => rfl
  | cons x ws ih =>
    have hx := h x (List.mem_cons_self _ _)
    subst hx
    simp only [liveWorkers]
    exact ih (fun y hy => h y (List.mem_cons_of_mem _ hy))

theorem heldResults_replicate (n : Nat) :
    heldResults (List.replicate n WorkerState.receiving) = [] := by
  induction n with
  | zero => rfl
  | succ n ih => simp [List.replicate, heldResults, ih]

theorem liveWorkers_replicate (n : Nat) :
    liveWorkers (List.replicate n WorkerState.receiving) = n := by
  induction n with
  | zero => rfl
  | succ n ih => simp [List.replicate, liveWorkers, ih]

theorem workerBody_eq_outcomeOf (w : World) (l : GoString) :
    workerBody w (w.TrimSpace l) = outcomeOf w l := rfl

theorem Pipeline.Inv_init (w : World) (W : Nat) (lines : List GoString) :
    (Pipeline.init W lines).Inv w W lines where
  conserve := by simp [Pipeline.init, heldResults_replicate]
  closedInput := by simp [Pipeline.init]
  doneJobs := by
    intro h
    simp [Pipeline.init, List.mem_replicate] at h
  closedDone := by simp [Pipeline.init]
  doneClosed := by simp [Pipeline.init]
  size := by simp [Pipeline.init]

theorem mem_set_of_live (ws : List WorkerState) (i : Nat) (y : WorkerState)
    (hy : y ≠ WorkerState.done)
    (hd : WorkerState.done ∈ ws.set i y) : WorkerState.done ∈ ws := by
  rcases List.mem_or_eq_of_mem_set hd with hd | hd
  · exact hd
  · exact absurd hd.symm hy

theorem Pipeline.Inv_step (w : World) (W : Nat) (lines : List GoString) (s t : Pipeline)
    (a : Action) (hinv : s.Inv w W lines) (h : s.step w W a = some t) : t.Inv w W lines := by
  cases a with
  | produce =>
    simp only [Pipeline.step] at h
    split at h
    · rename_i l rest hin
      split at h
      · cases h
        have hopen : s.jobsClosed = false := by
          cases hc : s.jobsClosed with
          | false => rfl
          | true => have := hinv.closedInput hc; rw [hin] at this; cases this
        have hnodone : WorkerState.done ∉ s.workers := fun hd => by
          have := (hinv.doneJobs hd).1; rw [hopen] at this; cases this
        exact {
          conserve := by
            have := hinv.conserve
            rw [hin] at this
            simpa [workerBody_eq_outcomeOf] using this
          closedInput := by simp [hopen]
          doneJobs := fun hd => absurd hd hnodone
          closedDone := hinv.closedDone
          doneClosed := hinv.doneClosed
          size := hinv.size }
      · cases h
    · cases h
  | closeJobs =>
    simp only [Pipeline.step] at h
    split at h
    · rename_i hg
      cases h
      have hnodone : WorkerState.done ∉ s.workers := fun hd => by
        have := (hinv.doneJobs hd).1; rw [hg.2] at this; cases this
      exact {
        conserve := hinv.conserve
        closedInput := fun _ => hg.1
        doneJobs := fun hd => absurd hd hnodone
        closedDone := hinv.closedDone
        doneClosed := hinv.doneClosed
        size := hinv.size }
    · cases h
  | recv i =>
    simp only [Pipeline.step] at h
    split at h
    · rename_i j js hw hj
      cases h
      have hmem : WorkerState.receiving ∈ s.workers := List.get?_mem hw
      have hnodone : WorkerState.done ∉ s.workers := fun hd => by
        have := (hinv.doneJobs hd).2; rw [hj] at this; cases this
      have hropen : s.resultsClosed = false := by
        cases hc : s.resultsClosed with
        | false => rfl
        | true => have := hinv.closedDone hc _ hmem; cases this
      exact {
        conserve := by
          have hc := hinv.conserve
          rw [hj] at hc
          refine List.Perm.trans ?_ hc
          refine List.Perm.append_left _ (List.Perm.append_left _ ?_)
          refine ((heldResults_set_sending _ i (workerBody w j) hw).append_right _).trans ?_
          simp only [List.map_cons, List.cons_append]
          exact List.perm_middle.symm
        closedInput := hinv.closedInput
        doneJobs := fun hd =>
          absurd (mem_set_of_live _ i _ (by simp) hd) hnodone
        closedDone := by simp [hropen]
        doneClosed := hinv.doneClosed
        size := by simp [hinv.size] }
    · cases h
  | send i =>
    simp only [Pipeline.step] at h
    split at h
    · rename_i r hw
      split at h
      · cases h
        have hmem : WorkerState.sending r ∈ s.workers := List.get?_mem hw
        have hropen : s.resultsClosed = false := by
          cases hc : s.resultsClosed with
          | false => rfl
          | true => have := hinv.closedDone hc _ hmem; cases this
        have hcopen : s.collectorDone = false := by
          cases hc : s.collectorDone with
          | false => rfl
          | true => have := (hinv.doneClosed hc).1; rw [hropen] at this; cases this
        exact {
          conserve := by
            refine List.Perm.trans ?_ hinv.conserve
            refine List.Perm.append_left _ ?_
            simp only [List.append_assoc, List.singleton_append]
            refine List.Perm.append_left _ ?_
            rw [← List.cons_append]
            exact (heldResults_set_receiving _ i r hw).append_right _
          closedInput := hinv.closedInput
          doneJobs := fun hd =>
            hinv.doneJobs (mem_set_of_live _ i _ (by simp) hd)
          closedDone := by simp [hropen]
          doneClosed := by simp [hcopen]
          size := by simp [hinv.size] }
      · cases h
    · cases h
  | exit i =>
    simp only [Pipeline.step] at h
    split at h
    · rename_i hw
      split at h
      · rename_i hg
        cases h
        have hmem : WorkerState.receiving ∈ s.workers := List.get?_mem hw
        have hropen : s.resultsClosed = false := by
          cases hc : s.resultsClosed with
          | false => rfl
          | true => have := hinv.closedDone hc _ hmem; cases this
        exact {
          conserve := by
            have := hinv.conserve
            simpa [heldResults_set_done _ i hw] using this
          closedInput := hinv.closedInput
          doneJobs := fun _ => ⟨hg.2, hg.1⟩
          closedDone := by simp [hropen]
          doneClosed := hinv.doneClosed
          size := by simp [hinv.size] }
      · cases h
    · cases h
  | closeResults =>
    simp only [Pipeline.step] at h
    split at h
    · rename_i hg
      cases h
      have hcopen : s.collectorDone = false := by
        cases hc : s.collectorDone with
        | false => rfl
        | true => have := (hinv.doneClosed hc).1; rw [hg.2] at this; cases this
      exact {
        conserve := hinv.conserve
        closedInput := hinv.closedInput
        doneJobs := hinv.doneJobs
        closedDone := fun _ x hx => by
          have := hg.1
          simp only [List.all_eq_true, decide_eq_true_eq] at this
          exact this x hx
        doneClosed := by simp [hcopen]
        size := hinv.size }
    · cases h
  | collect =>
    simp only [Pipeline.step] at h
    split at h
    · rename_i r rs hr
      split at h
      · rename_i hg
        cases h
        exact {
          conserve := by
            have := hinv.conserve
            rw [hr] at this
            simpa using this
          closedInput := hinv.closedInput
          doneJobs := hinv.doneJobs
          closedDone := hinv.closedDone
          doneClosed := by simp [hg]
          size := hinv.size }
      · cases h
    · cases h
  | finish =>
    simp only [Pipeline.step] at h
    split at h
    · rename_i hg
      cases h
      exact {
        conserve := hinv.conserve
        closedInput := hinv.closedInput
        doneJobs := hinv.doneJobs
        closedDone := hinv.closedDone
        doneClosed := fun _ => ⟨hg.2.1, hg.1⟩
        size := hinv.size }
    · cases h

theorem Pipeline.Inv_run (w : World) (W : Nat) (lines : List GoString) (sched : List Action) :
    ∀ s t : Pipeline, s.Inv w W lines → Pipeline.run w W s sched = some t → t.Inv w W lines := by
  induction sched with
  | nil =>
    intro s t hinv h
    simp only [Pipeline.run, Option.some.injEq] at h
    exact h ▸ hinv
  | cons a as ih =>
    intro s t hinv h
    simp only [Pipeline.run] at h
    split at h
    · rename_i u hu
      exact ih u t (Pipeline.Inv_step w W lines s u a hinv hu) h
    · cases h

theorem heldResults_length_set_sending (ws : List WorkerState) (i : Nat) (r : Result)
    (h : ws.get? i = some WorkerState.receiving) :
    (heldResults (ws.set i (WorkerState.sending r))).length = (heldResults ws).length + 1 := by
  simpa using (heldResults_set_sending ws i r h).length_eq

theorem heldResults_length_set_receiving (ws : List WorkerState) (i : Nat) (r : Result)
    (h : ws.get? i = some (WorkerState.sending r)) :
    (heldResults (ws.set i WorkerState.receiving)).length + 1 = (heldResults ws).length := by
  simpa using (heldResults_set_receiving ws i r h).length_eq

theorem Pipeline.fuel_step (w : World) (W : Nat) (s t : Pipeline) (a : Action)
    (h : s.step w W a = some t) : t.fuel + 1 = s.fuel := by
  cases a with
  | produce =>
    simp only [Pipeline.step] at h
    split at h
    · rename_i l rest hin
      split at h
      · cases h
        simp only [Pipeline.fuel, hin, List.length_cons, List.length_append, List.length_nil]
        omega
      · cases h
    · cases h
  | closeJobs =>
    simp only [Pipeline.step] at h
    split at h
    · rename_i hg
      cases h
      simp only [Pipeline.fuel, hg.2]
      simp
      omega
    · cases h
  | recv i =>
    simp only [Pipeline.step] at h
    split at h
    · rename_i j js hw hj
      cases h
      have h1 := heldResults_length_set_sending _ i (workerBody w j) hw
      have h2 := liveWorkers_set_live _ i WorkerState.receiving
        (WorkerState.sending (workerBody w j)) hw (by simp) (by simp)
      simp only [Pipeline.fuel, hj, List.length_cons, h1, h2]
      omega
    · cases h
  | send i =>
    simp only [Pipeline.step] at h
    split at h
    · rename_i r hw
      split at h
      · cases h
        have h1 := heldResults_length_set_receiving _ i r hw
        have h2 := liveWorkers_set_live _ i (WorkerState.sending r) WorkerState.receiving hw
          (by simp) (by simp)
        simp only [Pipeline.fuel, List.length_append, List.length_cons, List.length_nil, h2]
        omega
      · cases h
    · cases h
  | exit i =>
    simp only [Pipeline.step] at h
    split at h
    · rename_i hw
      split at h
      · cases h
        have := liveWorkers_set_done _ i hw
        simp only [Pipeline.fuel, heldResults_set_done _ i hw]
        omega
      · cases h
    · cases h
  | closeResults =>
    simp only [Pipeline.step] at h
    split at h
    · rename_i hg
      cases h
      simp only [Pipeline.fuel, hg.2]
      simp
      omega
    · cases h
  | collect =>
    simp only [Pipeline.step] at h
    split at h
    · rename_i r rs hr
      split at h
      · cases h
        simp only [Pipeline.fuel, hr, List.length_cons]
        omega
      · cases h
    · cases h
  | finish =>
    simp only [Pipeline.step] at h
    split at h
    · rename_i hg
      cases h
      simp only [Pipeline.fuel, hg.2.2]
      simp
    · cases h

theorem Pipeline.fuel_run (w : World) (W : Nat) (sched : List Action) :
    ∀ s t : Pipeline, Pipeline.run w W s sched = some t → t.fuel + sched.length = s.fuel := by
  induction sched with
  | nil =>
    intro s t h
    simp only [Pipeline.run, Option.some.injEq] at h
    simp [h]
  | cons a as ih =>
    intro s t h
    simp only [Pipeline.run] at h
    split at h
    · rename_i u hu
      have h1 := ih u t h
      have h2 := Pipeline.fuel_step w W s u a hu
      simp only [List.length_cons]
      omega
    · cases h

theorem Pipeline.run_append (w : World) (W : Nat) (as bs : List Action) :
    ∀ s t u : Pipeline, Pipeline.run w W s as = some t → Pipeline.run w W t bs = some u →
      Pipeline.run w W s (as ++ bs) = some u := by
  induction as with
  | nil =>
    intro s t u h1 h2
    simp only [Pipeline.run, Option.some.injEq] at h1
    subst h1
    simpa using h2
  | cons a as ih =>
    intro s t u h1 h2
    simp only [Pipeline.run] at h1
    split at h1
    · rename_i v hv
      simp only [List.cons_append, Pipeline.run, hv]
      exact ih v t u h1 h2
    · cases h1

theorem workers_cases (ws : List WorkerState) :
    (∃ i r, ws.get? i = some (WorkerState.sending r))
    ∨ (∃ i, ws.get? i = some WorkerState.receiving)
    ∨ (∀ x ∈ ws, x = WorkerState.done) := by
  induction ws with
  | nil => exact Or.inr (Or.inr (fun x hx => by cases hx))
  | cons x ws ih =>
    cases x with
    | sending r => exact Or.inl ⟨0, r, rfl⟩
    | receiving => exact Or.inr (Or.inl ⟨0, rfl⟩)
    | done =>
      rcases ih with ⟨i, r, h⟩ | ⟨i, h⟩ | h
      · exact Or.inl ⟨i + 1, r, h⟩
      · exact Or.inr (Or.inl ⟨i + 1, h⟩)
      · refine Or.inr (Or.inr (fun y hy => ?_))
        rcases List.mem_cons.mp hy with rfl | hy
        · rfl
        · exact h y hy

/-- No deadlock: with at least one worker (so both channels have room for
at least one item), some goroutine can take a step in every state in which
the collector loop has not ended. -/
theorem Pipeline.progress (w : World) (W : Nat) (hW : 1 ≤ W) (s : Pipeline)
    (hdone : s.collectorDone = false) : ∃ a t, s.step w W a = some t := by
  suffices hs : ∃ a, (s.step w W a).isSome = true by
    obtain ⟨a, ha⟩ := hs
    exact ⟨a, Option.isSome_iff_exists.mp ha⟩
  cases hres : s.results with
  | cons r rs =>
    refine ⟨Action.collect, ?_⟩
    simp only [Pipeline.step, hres, hdone]
    rfl
  | nil =>
    cases hrc : s.resultsClosed with
    | true =>
      refine ⟨Action.finish, ?_⟩
      simp only [Pipeline.step, hres, hrc, hdone]
      rfl
    | false =>
      rcases workers_cases s.workers with ⟨i, r, h⟩ | ⟨i, h⟩ | h
      · refine ⟨Action.send i, ?_⟩
        simp only [Pipeline.step, h, hres, List.length_nil]
        rw [if_pos (by omega)]
        rfl
      · cases hj : s.jobs with
        | cons j js =>
          refine ⟨Action.recv i, ?_⟩
          simp only [Pipeline.step, h, hj]
          rfl
        | nil =>
          cases hjc : s.jobsClosed with
          | true =>
            refine ⟨Action.exit i, ?_⟩
            simp only [Pipeline.step, h, hj, hjc]
            rfl
          | false =>
            cases hin : s.input with
            | nil =>
              refine ⟨Action.closeJobs, ?_⟩
              simp only [Pipeline.step, hin, hjc]
              rfl
            | cons l rest =>
              refine ⟨Action.produce, ?_⟩
              simp only [Pipeline.step, hin, hj, List.length_nil]
              rw [if_pos (by omega)]
              rfl
      · refine ⟨Action.closeResults, ?_⟩
        have hall : (s.workers.all fun x => decide (x = WorkerState.done)) = true := by
          simp only [List.all_eq_true, decide_eq_true_eq]
          exact h
        simp only [Pipeline.step, hall, hrc]
        rfl

theorem Pipeline.exists_complete_run (w : World) (W : Nat) (hW : 1 ≤ W) :
    ∀ (n : Nat) (s : Pipeline), s.fuel = n →
      ∃ rest t, Pipeline.run w W s rest = some t ∧ t.collectorDone = true := by
  intro n
  induction n using Nat.strong_induction_on with
  | _ n ih =>
    intro s hn
    cases hd : s.collectorDone with
    | true => exact ⟨[], s, rfl, hd⟩
    | false =>
      obtain ⟨a, u, hu⟩ := Pipeline.progress w W hW s hd
      have hf := Pipeline.fuel_step w W s u a hu
      obtain ⟨rest, t, hr, ht⟩ := ih u.fuel (by omega) u rfl
      exact ⟨a :: rest, t, by simp [Pipeline.run, hu, hr], ht⟩

theorem Pipeline.collected_of_done (w : World) (W : Nat) (hW : 1 ≤ W) (lines : List GoString)
    (s : Pipeline) (hinv : s.Inv w W lines) (hd : s.collectorDone = true) :
    s.collected.Perm (lines.map (outcomeOf w)) := by
  obtain ⟨hrc, hres⟩ := hinv.doneClosed hd
  have hall := hinv.closedDone hrc
  have hne : s.workers ≠ [] := by
    intro e
    have := hinv.size
    rw [e] at this
    simp at this
    omega
  obtain ⟨x, hx⟩ := List.exists_mem_of_ne_nil _ hne
  have hxd : WorkerState.done ∈ s.workers := (hall x hx) ▸ hx
  obtain ⟨hjc, hj⟩ := hinv.doneJobs hxd
  have hin := hinv.closedInput hjc
  have := hinv.conserve
  rw [hres, heldResults_all_done _ hall, hj, hin] at this
  simpa using this

theorem Pipeline.fuel_init (W : Nat) (lines : List GoString) :
    (Pipeline.init W lines).fuel = 4 * lines.length + W + 3 := by
  simp [Pipeline.fuel, Pipeline.init, heldResults_replicate, liveWorkers_replicate]

/-- C7: with `W ≥ 1` workers the pipeline of producer, workers, supervisor
and collector delivers exactly one result per line read.  Some schedule
runs it until the collector loop ends.  Under every schedule, each line is
at every moment in exactly one place (unread, in `jobs`, held by a worker,
in `results`, or collected); when the collector loop has ended, the
collected results are, up to order, one result per line `l`, namely
`{input: t, domain: extractDomain(t), ip: resolveDomain(extractDomain(t))}`
for `t` the line as the producer sends it; while it has not ended some
goroutine can step; and every run is finite, the steps taken and the work
left adding up to `4 * lines + W + 3`. -/
theorem pipeline_delivers_each_line_once (w : World) (W : Nat) (hW : 1 ≤ W)
    (lines : List GoString) :
    (∃ sched t, Pipeline.run w W (Pipeline.init W lines) sched = some t ∧
        t.collectorDone = true)
    ∧ ∀ (sched : List Action) (s : Pipeline),
        Pipeline.run w W (Pipeline.init W lines) sched = some s →
          (s.collected ++ (s.results ++ (heldResults s.workers ++
              (s.jobs.map (workerBody w) ++ s.input.map (outcomeOf w))))).Perm
            (lines.map (outcomeOf w))
          ∧ (s.collectorDone = true →
              s.collected.Perm (lines.map fun l =>
                { InputURL := w.TrimSpace l,
                  Domain := extractDomain (w.TrimSpace l),
                  IP := resolveDomain w (extractDomain (w.TrimSpace l)) }))
          ∧ (s.collectorDone = false → ∃ a t, s.step w W a = some t)
          ∧ s.fuel + sched.length = 4 * lines.length + W + 3 := by
  refine ⟨Pipeline.exists_complete_run w W hW _ _ rfl, ?_⟩
  intro sched s hrun
  have hinv := Pipeline.Inv_run w W lines sched _ s (Pipeline.Inv_init w W lines) hrun
  refine ⟨hinv.conserve, ?_, Pipeline.progress w W hW s, ?_⟩
  · intro hd
    exact Pipeline.collected_of_done w W hW lines s hinv hd
  · rw [Pipeline.fuel_run w W sched _ s hrun, Pipeline.fuel_init]

/-- C7 at one worker and the single line "www.example.com", with a lookup
that answers 93.184.216.34: the schedule below runs the pipeline to its end
and the collector has received exactly the result of that line. -/
theorem pipeline_delivers_each_line_once_witness :
    Pipeline.run ⟨id, fun _ => some [[93, 184, 216, 34]]⟩ 1
        (Pipeline.init 1 [str "www.example.com"])
        [Action.produce, Action.closeJobs, Action.recv 0, Action.send 0, Action.exit 0,
         Action.closeResults, Action.collect, Action.finish]
      = some { input := [], jobs := [], jobsClosed := true, workers := [WorkerState.done],
               results := [], resultsClosed := true,
               collected := [⟨str "www.example.com", str "example.com", str "93.184.216.34"⟩],
               collectorDone := true }
    ∧ [(⟨str "www.example.com", str "example.com", str "93.184.216.34"⟩ : Result)].Perm
        ([str "www.example.com"].map fun l =>
          { InputURL := l, Domain := extractDomain l,
            IP := resolveDomain ⟨id, fun _ => some [[93, 184, 216, 34]]⟩ (extractDomain l) }) :=
  have hrun : Pipeline.run ⟨id, fun _ => some [[93, 184, 216, 34]]⟩ 1
        (Pipeline.init 1 [str "www.example.com"])
        [Action.produce, Action.closeJobs, Action.recv 0, Action.send 0, Action.exit 0,
         Action.closeResults, Action.collect, Action.finish]
      = some { input := [], jobs := [], jobsClosed := true, workers := [WorkerState.done],
               results := [], resultsClosed := true,
               collected := [⟨str "www.example.com", str "example.com", str "93.184.216.34"⟩],
               collectorDone := true } := by decide
  ⟨hrun, ((pipeline_delivers_each_line_once ⟨id, fun _ => some [[93, 184, 216, 34]]⟩ 1
      (by decide) [str "www.example.com"]).2 _ _ hrun).2.1 rfl⟩

end Resolver
